import Mathlib

/-!
Verification of the iOS-Home-Screen data model (`src/ios_home_screen.py`).

The development has two layers, both translated from the source file:

* A pointer-level model of the `DoublyLinkedList` class (fields `head`,
  `tail`, `size`, `capacity`, and the intrusive `next`/`prev` links of the
  nodes).  Nodes are identified by natural numbers; the heap of links is a
  pair of functions `Nat → Option Nat`.  Every method body is transcribed
  statement by statement, preserving the order of the pointer writes.

* A functional model of the container hierarchy (`Single_Page_Container`,
  `Multi_Page_Container`, `Dock`, `Page`, `Home`).  Pages are records holding
  their item names in order; the `parent` back-reference of the items is a
  map from names to parent references.  Python exceptions are modelled with
  `Except PyErr`; a method that prints an error message and returns without
  mutating is modelled as returning its input state.
-/

namespace IosHome

/-! ### Pointer-level model of `DoublyLinkedList` (ios_home_screen.py:657-927) -/

/-- Pointwise update of a link heap. -/
def updf (f : Nat → Option Nat) (k : Nat) (v : Option Nat) : Nat → Option Nat :=
  fun n => if n = k then v else f n

/-- State of one `DoublyLinkedList` object together with the `next`/`prev`
fields of all `Node` objects (nodes are named by naturals). -/
structure DLL where
  next : Nat → Option Nat
  prev : Nat → Option Nat
  head : Option Nat
  tail : Option Nat
  size : Nat
  capacity : Option Nat

/-- `DoublyLinkedList.__init__(nodes=None, capacity=c)`: empty list; all node
links start out `None` (class attributes of `Node`). -/
def initDLL (c : Option Nat) : DLL :=
  { next := fun _ => none, prev := fun _ => none,
    head := none, tail := none, size := 0, capacity := c }

/-- The capacity guard `if self.capacity is not None: if self.size == self.capacity`. -/
def capAtMax (st : DLL) : Prop := st.capacity = some st.size

instance (st : DLL) : Decidable (capAtMax st) := by
  unfold capAtMax; infer_instance

/-- `DoublyLinkedList.push` (lines 712-734).  Returns the updated heap and the
Boolean result of the method. -/
def push (st : DLL) (n : Nat) : DLL × Bool :=
  if capAtMax st then (st, false)
  else if st.size = 0 ∧ st.head = none ∧ st.tail = none then
    ({ st with head := some n, tail := some n,
               next := updf st.next n none, prev := updf st.prev n none,
               size := st.size + 1 }, true)
  else
    -- new_node.prev = self.tail; if new_node.prev is not None: new_node.prev.next = new_node
    let prev1 := updf st.prev n st.tail
    let next1 := match st.tail with
      | some t => updf st.next t (some n)
      | none => st.next
    ({ st with prev := prev1, next := updf next1 n none,
               tail := some n, size := st.size + 1 }, true)

/-- `DoublyLinkedList.push_front` (lines 745-763). -/
def push_front (st : DLL) (n : Nat) : DLL × Bool :=
  if capAtMax st then (st, false)
  else if st.size = 0 ∧ st.head = none ∧ st.tail = none then push st n
  else
    -- new_node.next = self.head; if new_node.next is not None: new_node.next.prev = new_node
    let next1 := updf st.next n st.head
    let prev1 := match st.head with
      | some h => updf st.prev h (some n)
      | none => st.prev
    ({ st with next := next1, prev := updf prev1 n none,
               head := some n, size := st.size + 1 }, true)

/-- `DoublyLinkedList.remove` (lines 774-794), transcribed write by write. -/
def removeNode (st : DLL) (n : Nat) : DLL :=
  if st.size = 0 then st
  else
    -- if node.prev is not None: node.prev.next = node.next  else: self.head = node.next
    let st1 :=
      match st.prev n with
      | some p => { st with next := updf st.next p (st.next n) }
      | none => { st with head := st.next n }
    -- if node.next is not None: node.next.prev = node.prev  else: self.tail = node.prev
    let st2 :=
      match st1.next n with
      | some q => { st1 with prev := updf st1.prev q (st1.prev n) }
      | none => { st1 with tail := st1.prev n }
    { st2 with next := updf st2.next n none, prev := updf st2.prev n none,
               size := st2.size - 1 }

/-- `DoublyLinkedList.pop` (lines 736-740).  When `size > 0` but `tail` is
`None` the Python code would dereference `None`; under the list invariant that
state is unreachable, and the model leaves the state unchanged there. -/
def pop (st : DLL) : DLL :=
  if st.size = 0 then st
  else
    match st.tail with
    | some t => removeNode st t
    | none => st

/-- `DoublyLinkedList.pop_front` (lines 765-769). -/
def pop_front (st : DLL) : DLL :=
  if st.size = 0 then st
  else
    match st.head with
    | some h => removeNode st h
    | none => st

/-- `DoublyLinkedList.add_after` (lines 881-903), anchor given by reference.
An empty list raises in Python; the model returns the state unchanged there
(the theorems only invoke it with the anchor in the list). -/
def add_after (st : DLL) (a n : Nat) : DLL :=
  if capAtMax st then st
  else if st.size = 0 then st
  else
    -- if node.next is None: self.tail = new_node
    let st1 :=
      match st.next a with
      | none => { st with tail := some n }
      | some _ => st
    -- new_node.next = node.next
    let st2 := { st1 with next := updf st1.next n (st1.next a) }
    -- node.next = new_node
    let st3 := { st2 with next := updf st2.next a (some n) }
    -- new_node.prev = node
    let st4 := { st3 with prev := updf st3.prev n (some a) }
    -- if new_node.next is not None: new_node.next.prev = new_node
    let st5 :=
      match st4.next n with
      | some q => { st4 with prev := updf st4.prev q (some n) }
      | none => st4
    { st5 with size := st5.size + 1 }

/-- `DoublyLinkedList.add_before` (lines 905-927). -/
def add_before (st : DLL) (a n : Nat) : DLL :=
  if capAtMax st then st
  else if st.size = 0 then st
  else
    -- if node.prev is None: self.head = new_node
    let st1 :=
      match st.prev a with
      | none => { st with head := some n }
      | some _ => st
    -- new_node.next = node
    let st2 := { st1 with next := updf st1.next n (some a) }
    -- new_node.prev = node.prev
    let st3 := { st2 with prev := updf st2.prev n (st2.prev a) }
    -- node.prev = new_node
    let st4 := { st3 with prev := updf st3.prev a (some n) }
    -- if new_node.prev is not None: new_node.prev.next = new_node
    let st5 :=
      match st4.prev n with
      | some p => { st4 with next := updf st4.next p (some n) }
      | none => st4
    { st5 with size := st5.size + 1 }

/-- Walking forward from a node by `next` links, with fuel. -/
def walkFwd (st : DLL) : Nat → Option Nat → List Nat
  | 0, _ => []
  | _ + 1, none => []
  | fuel + 1, some a => a :: walkFwd st fuel (st.next a)

/-- Walking backward from a node by `prev` links, with fuel. -/
def walkBwd (st : DLL) : Nat → Option Nat → List Nat
  | 0, _ => []
  | _ + 1, none => []
  | fuel + 1, some a => a :: walkBwd st fuel (st.prev a)

/-- One list operation of the sequences quantified over in P1. -/
inductive Op where
  | push (n : Nat)
  | pushFront (n : Nat)
  | pop
  | popFront
  | remove (n : Nat)
  | insertAfter (a n : Nat)
  | insertBefore (a n : Nat)
deriving DecidableEq, Repr

/-- Apply one operation to the heap (return values discarded, as in the
container code). -/
def applyOp (st : DLL) : Op → DLL
  | .push n => (push st n).1
  | .pushFront n => (push_front st n).1
  | .pop => pop st
  | .popFront => pop_front st
  | .remove n => removeNode st n
  | .insertAfter a n => add_after st a n
  | .insertBefore a n => add_before st a n

/-- Run a sequence of operations. -/
def runOps (st : DLL) : List Op → DLL
  | [] => st
  | op :: ops => runOps (applyOp st op) ops

/-- Abstract (sequence-level) effect of one operation on the list of node ids,
used to phrase validity of an operation sequence. -/
def absOp (c : Option Nat) (l : List Nat) : Op → List Nat
  | .push n => if c = some l.length then l else l ++ [n]
  | .pushFront n => if c = some l.length then l else n :: l
  | .pop => l.dropLast
  | .popFront => l.tail
  | .remove n => l.erase n
  | .insertAfter a n => if c = some l.length then l else insAfter a n l
  | .insertBefore a n => if c = some l.length then l else insBefore a n l
where
  insAfter (a n : Nat) : List Nat → List Nat
    | [] => []
    | b :: t => if b = a then b :: n :: t else b :: insAfter a n t
  insBefore (a n : Nat) : List Nat → List Nat
    | [] => []
    | b :: t => if b = a then n :: b :: t else b :: insBefore a n t

/-- Mirror image of a heap: swap the two link directions and the two ends
(used to transport forward-walk facts to backward walks). -/
def flipDLL (st : DLL) : DLL :=
  { next := st.prev, prev := st.next, head := st.tail, tail := st.head,
    size := st.size, capacity := st.capacity }

/-- Abstract effect of a whole operation sequence. -/
def absRun (c : Option Nat) : List Nat → List Op → List Nat
  | l, [] => l
  | l, op :: ops => absRun c (absOp c l op) ops

/-- Validity of one operation relative to the current node list: `remove` and
the anchors of the inserts name nodes currently in the list, and a pushed or
inserted node is not currently in the list. -/
def opOk (l : List Nat) : Op → Prop
  | .push n => n ∉ l
  | .pushFront n => n ∉ l
  | .pop => True
  | .popFront => True
  | .remove n => n ∈ l
  | .insertAfter a n => a ∈ l ∧ n ∉ l
  | .insertBefore a n => a ∈ l ∧ n ∉ l

instance (l : List Nat) (op : Op) : Decidable (opOk l op) := by
  cases op <;> (unfold opOk; infer_instance)

/-- Validity of a whole sequence, tracked through the abstract effect. -/
def SeqOk (c : Option Nat) : List Nat → List Op → Prop
  | _, [] => True
  | l, op :: ops => opOk l op ∧ SeqOk c (absOp c l op) ops

instance instDecSeqOk (c : Option Nat) : (l : List Nat) → (ops : List Op) → Decidable (SeqOk c l ops)
  | _, [] => .isTrue trivial
  | l, op :: ops =>
    have : Decidable (SeqOk c (absOp c l op) ops) := instDecSeqOk c _ ops
    by unfold SeqOk; infer_instance

/-- The heap `st` represents the node list `l`: `head`, `tail` and `size`
agree with `l`, the nodes of `l` are pairwise linked in order, and the two end
links are `None`. -/
structure Rep (st : DLL) (l : List Nat) : Prop where
  head_eq : st.head = l.head?
  tail_eq : st.tail = l.getLast?
  size_eq : st.size = l.length
  nodup : l.Nodup
  chain : List.Chain' (fun a b => st.next a = some b ∧ st.prev b = some a) l
  last_next : ∀ a, l.getLast? = some a → st.next a = none
  head_prev : ∀ a, l.head? = some a → st.prev a = none

/-! ### Functional model of the container hierarchy

Pages hold item names in order (the contents of their item
`DoublyLinkedList`); the intrusive pointer structure of those inner lists is
studied separately above.  Python exceptions are modelled by `Except PyErr`. -/

/-- Python exceptions that the modelled code can raise. -/
inductive PyErr where
  | typeError
  | keyError
  | attributeError
  | indexError
  | invalidIndex
deriving DecidableEq, Repr

/-- A parent reference of an `Item` (`item.parent`): the page or dock that
holds it, or detached. -/
inductive PRef where
  | page (pid : Nat)
  | dock
deriving DecidableEq, Repr

/-- A `Page` (a `Single_Page_Container` in a pages list): fresh id standing in
for the uuid, ordered item names, and its fixed capacity. -/
structure SPage where
  id : Nat
  items : List String
  capacity : Nat
deriving DecidableEq, Repr

/-- A `Multi_Page_Container` (Home's paging part or a `Folder`): page grid
parameters, the bound on pages, derived `max_apps`, the ordered pages, the
`parent` back-references of all items, and a counter producing fresh page
ids. -/
structure MPC where
  page_columns : Nat
  page_rows : Nat
  page_capacity : Nat
  max_pages : Option Nat
  max_apps : Option Nat
  pages : List SPage
  parentOf : String → Option PRef
  nextId : Nat

/-- `Multi_Page_Container.__init__` (lines 164-184).  `if max_pages:` is
Python truthiness: `None` and `0` both give `max_apps = None`. -/
def MPC.init (cols rows : Nat) (maxp : Option Nat) : MPC :=
  { page_columns := cols, page_rows := rows, page_capacity := rows * cols,
    max_pages := maxp,
    max_apps := match maxp with
      | some m => if m = 0 then none else some (rows * cols * m)
      | none => none,
    pages := [], parentOf := fun _ => none, nextId := 0 }

/-- Set the `parent` attribute of one item. -/
def setParent (c : MPC) (x : String) (v : Option PRef) : MPC :=
  { c with parentOf := fun y => if y = x then v else c.parentOf y }

/-- First page with the given id (the page object passed by reference). -/
def findPage (pid : Nat) : List SPage → Option SPage
  | [] => none
  | pg :: rest => if pg.id = pid then some pg else findPage pid rest

/-- Replace the first page with the given id. -/
def modifyPage (pid : Nat) (f : SPage → SPage) : List SPage → List SPage
  | [] => []
  | pg :: rest => if pg.id = pid then f pg :: rest else pg :: modifyPage pid f rest

/-- Insert a new page directly after the page with the given id
(`DoublyLinkedList.add_after` on the pages list, anchor known to be
present). -/
def insertAfterId (pid : Nat) (npg : SPage) : List SPage → List SPage
  | [] => []
  | pg :: rest => if pg.id = pid then pg :: npg :: rest else pg :: insertAfterId pid npg rest

/-- `DoublyLinkedList.push` on a page's item list: silently keeps the list
unchanged when the page is at capacity. -/
def pagePush (pg : SPage) (x : String) : SPage :=
  if pg.items.length = pg.capacity then pg else { pg with items := pg.items ++ [x] }

/-- `DoublyLinkedList.add_at_index` on a page's item list: capacity is checked
first (silent no-op), then an out-of-range index raises. -/
def pageAddAt (pg : SPage) (i : Nat) (x : String) : Except PyErr SPage :=
  if pg.items.length = pg.capacity then .ok pg
  else if pg.items.length < i then .error .invalidIndex
  else .ok { pg with items := pg.items.insertIdx i x }

/-- `Single_Page_Container._add_item` (lines 124-126) on the page `pid`:
`item.parent = self` happens first, then the push, which may silently fail at
capacity. -/
def spcAddItemEnd (c : MPC) (pid : Nat) (x : String) : MPC :=
  let c := setParent c x (some (.page pid))
  { c with pages := modifyPage pid (fun pg => pagePush pg x) c.pages }

/-- `Single_Page_Container.add_item` (lines 135-139) on the page `pid`:
append when no position is given, otherwise `add_item_at_index` (which also
reparents first). -/
def spcAddItem (c : MPC) (pid : Nat) (x : String) (pos : Option Nat) : Except PyErr MPC :=
  match pos with
  | none => .ok (spcAddItemEnd c pid x)
  | some i =>
    let c := setParent c x (some (.page pid))
    match findPage pid c.pages with
    | none => .ok c
    | some pg =>
      match pageAddAt pg i x with
      | .error e => .error e
      | .ok pg2 => .ok { c with pages := modifyPage pid (fun _ => pg2) c.pages }

/-- `Single_Page_Container.remove_item` (lines 119-122) on the page `pid`:
unlink the item, then clear its `parent`. -/
def spcRemoveItem (c : MPC) (pid : Nat) (x : String) : MPC :=
  let c := { c with pages := modifyPage pid (fun pg => { pg with items := pg.items.erase x }) c.pages }
  setParent c x none

/-- `Single_Page_Container.remove_last_item` (lines 152-155) on the page
`pid`: pop the tail item and clear its `parent`.  Popping an empty page
dereferences `None` in Python. -/
def spcRemoveLast (c : MPC) (pid : Nat) : Except PyErr (MPC × String) :=
  match findPage pid c.pages with
  | none => .ok (c, "")
  | some pg =>
    match pg.items.getLast? with
    | none => .error .attributeError
    | some last =>
      let c := { c with pages := modifyPage pid (fun pg2 => { pg2 with items := pg2.items.dropLast }) c.pages }
      .ok (setParent c last none, last)

/-- `Page.__init__` (lines 307-311): create a page with a fresh id and
capacity `page_capacity`, then `_add_item` each given item in order. -/
def mkPage (c : MPC) (xs : List String) : MPC × SPage :=
  let pid := c.nextId
  let c1 := { c with nextId := c.nextId + 1 }
  xs.foldl
    (fun acc x =>
      let c2 := setParent acc.1 x (some (.page pid))
      (c2, pagePush acc.2 x))
    (c1, { id := pid, items := [], capacity := c.page_capacity })

/-- `self._pages.push(page)`: push on the pages list, whose capacity is
`max_pages`. -/
def pagesPush (c : MPC) (pg : SPage) : MPC :=
  if c.max_pages = some c.pages.length then c
  else { c with pages := c.pages ++ [pg] }

/-- `self._pages.add_after(page, new_page)`: capacity of the pages list is
checked first (silent no-op). -/
def pagesAddAfter (c : MPC) (pid : Nat) (npg : SPage) : MPC :=
  if c.max_pages = some c.pages.length then c
  else { c with pages := insertAfterId pid npg c.pages }

/-- The backward overflow scan of `Multi_Page_Container._add_item`
(lines 207-218).  The loop starts at `self._pages.tail.prev` and its first
statement evaluates `curr_page.size()`; `size` is a `@property` returning an
`int`, so calling it raises `TypeError` as soon as any page is examined.
When `tail.prev` is `None` the loop is skipped and the method prints the
capacity error and returns `None`. -/
def scanBackward (c : MPC) : Except PyErr MPC :=
  match c.pages.getLast? with
  | none => .error .attributeError
  | some _ =>
    if 2 ≤ c.pages.length then .error .typeError
    else .ok c

/-- The `page is None` branch of `Multi_Page_Container._add_item`
(lines 194-222). -/
def addItemNone (c : MPC) (x : String) : Except PyErr MPC :=
  let tailFull :=
    match c.pages.getLast? with
    | none => true
    | some last => decide (last.items.length = c.page_capacity)
  if tailFull then
    if c.max_pages = none ∨ c.pages.length < c.max_pages.getD 0 then
      let (c1, npg) := mkPage c [x]
      .ok (pagesPush c1 npg)
    else
      scanBackward c
  else
    match c.pages.getLast? with
    | none => .error .attributeError
    | some last => .ok (spcAddItemEnd c last.id x)

/-- `Multi_Page_Container.add_item_at_page` (lines 227-237).  The
`page.parent_container != self` guard is modelled as the page id not being
present in this container's pages list. -/
def add_item_at_page (c : MPC) (pid : Nat) (x : String) (pos : Option Nat) : Except PyErr MPC :=
  match findPage pid c.pages with
  | none => .ok c
  | some pg =>
    let splitStep : Except PyErr MPC :=
      if pg.items.length = pg.capacity ∧
          (c.max_pages = none ∨ c.pages.length < c.max_pages.getD 0) then
        match spcRemoveLast c pid with
        | .error e => .error e
        | .ok (c1, last) =>
          let (c2, npg) := mkPage c1 [last]
          .ok (pagesAddAfter c2 pid npg)
      else .ok c
    match splitStep with
    | .error e => .error e
    | .ok c3 => spcAddItem c3 pid x pos

/-- `Multi_Page_Container._remove_item` (lines 248-266): delegate to the
owning page, then prune the page when it became empty.  A detached item
(`parent` `None`) dereferences `None`.  The dock-parent case does not occur
through the modelled entry points (`delete_app` routes dock items
separately). -/
def mpcRemoveItem (c : MPC) (x : String) : Except PyErr MPC :=
  match c.parentOf x with
  | none => .error .attributeError
  | some .dock => .ok c
  | some (.page pid) =>
    match findPage pid c.pages with
    | none => .ok c
    | some pg =>
      let newItems := pg.items.erase x
      let c1 := setParent { c with pages := modifyPage pid (fun pg2 => { pg2 with items := newItems }) c.pages } x none
      if newItems.length = 0 then
        .ok { c1 with pages := c1.pages.filter (fun p => p.id ≠ pid) }
      else
        .ok c1

/-! ### Model of `Home` (lines 358-654) -/

/-- The `Dock` (a `Single_Page_Container` with its own capacity). -/
structure DockS where
  items : List String
  capacity : Nat
deriving DecidableEq, Repr

/-- State of a `Home` object: the inherited multi-page container, the dock,
the name registry (name, `can_delete`) in insertion order, the folder name
registry, and the running-apps queue.  Folder contents are not modelled: none
of the verified operations is applied to a state containing folders. -/
structure HomeS where
  mpc : MPC
  dock : DockS
  apps : List (String × Bool)
  folders : List String
  openApps : List String

/-- `Dock.add_item` = `Single_Page_Container.add_item` on the dock:
reparent first, then push (silent at capacity) or `add_at_index`. -/
def dockAddItem (h : HomeS) (x : String) (pos : Option Nat) : Except PyErr HomeS :=
  let h := { h with mpc := setParent h.mpc x (some .dock) }
  match pos with
  | none =>
    .ok { h with dock := { h.dock with items :=
      if h.dock.items.length = h.dock.capacity then h.dock.items else h.dock.items ++ [x] } }
  | some i =>
    if h.dock.items.length = h.dock.capacity then .ok h
    else if h.dock.items.length < i then .error .invalidIndex
    else .ok { h with dock := { h.dock with items := h.dock.items.insertIdx i x } }

/-- `Home.move_item_to_dock` (lines 633-640).  The name is resolved by
`__find_item` (apps, then folders; an unresolved name leaves `item = None`
and the subsequent `item.parent` dereference raises).  The dock capacity
check happens before any mutation; then the item is removed from its current
parent (with NO pruning of an emptied page) and added to the dock. -/
def move_item_to_dock (h : HomeS) (name : String) (pos : Option Nat) : Except PyErr HomeS :=
  if (h.apps.lookup name).isNone ∧ name ∉ h.folders then .error .attributeError
  else if h.dock.items.length = h.dock.capacity then .ok h
  else
    match h.mpc.parentOf name with
    | none => .error .attributeError
    | some (.page pid) =>
      dockAddItem { h with mpc := spcRemoveItem h.mpc pid name } name pos
    | some .dock =>
      let h := { h with dock := { h.dock with items := h.dock.items.erase name },
                        mpc := setParent h.mpc name none }
      dockAddItem h name pos

/-- `Home.run_app` (lines 551-561): returns `True` when the app is started,
`False` when the name is unknown, and `None` (fall-through) when the app was
already running. -/
def run_app (h : HomeS) (name : String) : HomeS × Option Bool :=
  match h.apps.lookup name with
  | some _ =>
    if name ∈ h.openApps then (h, none)
    else ({ h with openApps := h.openApps ++ [name] }, some true)
  | none => (h, some false)

/-- `Home.terminate_app` (lines 563-565): `self._apps[app_name]` raises
`KeyError` for an unregistered name. -/
def terminate_app (h : HomeS) (name : String) : Except PyErr HomeS :=
  match h.apps.lookup name with
  | none => .error .keyError
  | some _ =>
    .ok (if name ∈ h.openApps then { h with openApps := h.openApps.erase name } else h)

/-- `Home.add_app` (lines 417-442): duplicate-name and `max_apps` guards, then
register the new `App` and place it through `_add_item` (no target page). -/
def add_app (h : HomeS) (name : String) : Except PyErr HomeS :=
  if (h.apps.lookup name).isSome then .ok h
  else if name ∈ h.folders then .ok h
  else if (match h.mpc.max_apps with
           | some m => decide (h.apps.length = m)
           | none => false) then .ok h
  else
    let h := { h with apps := h.apps ++ [(name, true)] }
    match addItemNone h.mpc name with
    | .error e => .error e
    | .ok m => .ok { h with mpc := m }

/-- `Home.delete_app` (lines 525-548): an unknown name makes `get_app` return
`None` and the `can_delete` access raise; a protected app returns with no
mutation; otherwise the app is terminated if running, unlinked from the dock
or from its page (with pruning via `_remove_item`), and deregistered.  The
folder branch is not modelled (no folders in the verified states). -/
def delete_app (h : HomeS) (name : String) : Except PyErr HomeS :=
  match h.apps.lookup name with
  | none => .error .attributeError
  | some canDel =>
    if canDel = false then .ok h
    else
      let h := if name ∈ h.openApps then { h with openApps := h.openApps.erase name } else h
      match h.mpc.parentOf name with
      | none => .error .attributeError
      | some .dock =>
        let h := { h with dock := { h.dock with items := h.dock.items.erase name },
                          mpc := setParent h.mpc name none }
        .ok { h with apps := h.apps.filter (fun p => p.1 ≠ name) }
      | some (.page _) =>
        match mpcRemoveItem h.mpc name with
        | .error e => .error e
        | .ok m => .ok { h with mpc := m, apps := h.apps.filter (fun p => p.1 ≠ name) }

/-- The four names protected from deletion in `Home.__init__`
(lines 389-391). -/
def protectedApps : List String := ["Phone", "Settings", "Clock", "Camera"]

/-- One iteration of the dock-seeding loop of `Home.__init__`
(`self.move_item_to_dock(self._apps[apps[idx]])`): `apps[idx]` raises
`IndexError` past the end, `self._apps[...]` raises `KeyError` when the app
was not registered. -/
def dockSeedStep (names : List String) (h : HomeS) (i : Nat) : Except PyErr HomeS :=
  match names.get? i with
  | none => .error .indexError
  | some n =>
    if (h.apps.lookup n).isNone then .error .keyError
    else move_item_to_dock h n none

/-- `Home.__init__` (lines 364-391): add every app of the list, move the
first `dock_capacity` of them to the dock (by object, hence without the
string-resolution step), then clear `can_delete` on the protected apps. -/
def buildHome (names : List String) (cols rows : Nat) (maxp : Option Nat) (dcap : Nat) :
    Except PyErr HomeS :=
  let h0 : HomeS :=
    { mpc := MPC.init cols rows maxp, dock := { items := [], capacity := dcap },
      apps := [], folders := [], openApps := [] }
  match names.foldlM (fun h n => add_app h n) h0 with
  | .error e => .error e
  | .ok h1 =>
    match (List.range dcap).foldlM (dockSeedStep names) h1 with
    | .error e => .error e
    | .ok h2 =>
      .ok { h2 with apps := h2.apps.map (fun p => if p.1 ∈ protectedApps then (p.1, false) else p) }

/-- The default app list of `Home.__init__`. -/
def defaultApps : List String :=
  ["Phone", "Mail", "Safari", "Music", "Maps", "Clock", "Settings", "Camera", "Notes"]

/-- A throwaway state used only as the default of `Option.getD`. -/
def emptyHome : HomeS :=
  { mpc := MPC.init 0 0 none, dock := { items := [], capacity := 0 },
    apps := [], folders := [], openApps := [] }

/-- The `Home()` built with all default arguments
(`page_columns=3, page_rows=4, max_pages=5, dock_capacity=4`). -/
def defaultHome : HomeS :=
  (buildHome defaultApps 3 4 (some 5) 4).toOption.getD emptyHome

/-! ### Concrete states used by individual claims -/

/-- A throwaway container used only as the default of `Option.getD`. -/
def emptyMPC : MPC := MPC.init 0 0 none

/-- A container at its page bound (2 pages, capacity 1 each) whose first page
has an opening and whose last page is full: the backward overflow scan is
reached when an item is added with no target page. -/
def exC1 : MPC :=
  { page_columns := 1, page_rows := 1, page_capacity := 1,
    max_pages := some 2, max_apps := some 2,
    pages := [{ id := 0, items := [], capacity := 1 },
              { id := 1, items := ["B"], capacity := 1 }],
    parentOf := fun y => if y = "B" then some (.page 1) else none,
    nextId := 2 }

/-- A one-page container for the C2 witness: page 0 is full with
`["A", "B"]`. -/
def exC2 : MPC :=
  { page_columns := 2, page_rows := 1, page_capacity := 2,
    max_pages := some 2, max_apps := some 4,
    pages := [{ id := 0, items := ["A", "B"], capacity := 2 }],
    parentOf := fun y => if y = "A" ∨ y = "B" then some (.page 0) else none,
    nextId := 1 }

/-- A container with a single full page and `max_pages` reached, used to show
what `add_item_at_page` does when no spare page capacity exists. -/
def exC3 : MPC :=
  { page_columns := 1, page_rows := 1, page_capacity := 1,
    max_pages := some 1, max_apps := some 1,
    pages := [{ id := 0, items := ["A"], capacity := 1 }],
    parentOf := fun y => if y = "A" then some (.page 0) else none,
    nextId := 1 }

/-- The state produced by adding "B" to the full page of `exC3`. -/
def exC3res : MPC := (add_item_at_page exC3 0 "B" none).toOption.getD emptyMPC

/-- A home whose only page holds exactly one item "A" and whose dock has
room: moving "A" to the dock empties the page. -/
def exC4 : HomeS :=
  { mpc := { page_columns := 1, page_rows := 1, page_capacity := 1,
             max_pages := some 2, max_apps := some 2,
             pages := [{ id := 0, items := ["A"], capacity := 1 }],
             parentOf := fun y => if y = "A" then some (.page 0) else none,
             nextId := 1 },
    dock := { items := [], capacity := 1 },
    apps := [("A", true)], folders := [], openApps := [] }

/-- The state after `move_item_to_dock(exC4, "A")`. -/
def exC4res : HomeS := (move_item_to_dock exC4 "A" none).toOption.getD emptyHome

/-- A home with three apps on one page and an empty dock of capacity 2
(Scenario B of the specification). -/
def scenB : HomeS :=
  { mpc := { page_columns := 3, page_rows := 4, page_capacity := 12,
             max_pages := some 5, max_apps := some 60,
             pages := [{ id := 0, items := ["A", "B", "C"], capacity := 12 }],
             parentOf := fun y => if y = "A" ∨ y = "B" ∨ y = "C" then some (.page 0) else none,
             nextId := 1 },
    dock := { items := [], capacity := 2 },
    apps := [("A", true), ("B", true), ("C", true)], folders := [], openApps := [] }

/-- `scenB` after moving "A" to the dock. -/
def scenB1 : HomeS := (move_item_to_dock scenB "A" none).toOption.getD emptyHome

/-- `scenB1` after moving "B" to the dock. -/
def scenB2 : HomeS := (move_item_to_dock scenB1 "B" none).toOption.getD emptyHome

/-- A home whose dock is already at capacity, used to instantiate the C7
theorem. -/
def exC7full : HomeS :=
  { mpc := { page_columns := 3, page_rows := 4, page_capacity := 12,
             max_pages := some 5, max_apps := some 60,
             pages := [{ id := 0, items := ["A"], capacity := 12 }],
             parentOf := fun y => if y = "A" then some (.page 0) else if y = "X" then some .dock else none,
             nextId := 1 },
    dock := { items := ["X"], capacity := 1 },
    apps := [("A", true), ("X", true)], folders := [], openApps := [] }

/-- A small home used for the C8 statements ("Zzz" is not registered). -/
def exC8 : HomeS :=
  { mpc := { page_columns := 3, page_rows := 4, page_capacity := 12,
             max_pages := some 5, max_apps := some 60,
             pages := [{ id := 0, items := ["A"], capacity := 12 }],
             parentOf := fun y => if y = "A" then some (.page 0) else none,
             nextId := 1 },
    dock := { items := [], capacity := 4 },
    apps := [("A", true)], folders := [], openApps := [] }

/-! ## Theorems -/

/-! ### Helper lemmas about page-list surgery -/

theorem findPage_split (l1 l2 : List SPage) (pg : SPage) (pid : Nat) (hid : pg.id = pid)
    (h : pid ∉ l1.map SPage.id) :
    findPage pid (l1 ++ pg :: l2) = some pg := by
  induction l1 with
  | nil => simp [findPage, hid]
  | cons q t ih =>
    simp only [List.map_cons, List.mem_cons, not_or] at h
    simp only [List.cons_append, findPage, List.append_eq]
    rw [if_neg fun hc => h.1 hc.symm, ih h.2]

theorem modifyPage_split (l1 l2 : List SPage) (pg : SPage) (f : SPage → SPage)
    (pid : Nat) (hid : pg.id = pid) (h : pid ∉ l1.map SPage.id) :
    modifyPage pid f (l1 ++ pg :: l2) = l1 ++ f pg :: l2 := by
  induction l1 with
  | nil => simp [modifyPage, hid]
  | cons q t ih =>
    simp only [List.map_cons, List.mem_cons, not_or] at h
    simp only [List.cons_append, modifyPage, List.append_eq]
    rw [if_neg fun hc => h.1 hc.symm, ih h.2]

theorem insertAfterId_split (l1 l2 : List SPage) (pg npg : SPage)
    (pid : Nat) (hid : pg.id = pid) (h : pid ∉ l1.map SPage.id) :
    insertAfterId pid npg (l1 ++ pg :: l2) = l1 ++ pg :: npg :: l2 := by
  induction l1 with
  | nil => simp [insertAfterId, hid]
  | cons q t ih =>
    simp only [List.map_cons, List.mem_cons, not_or] at h
    simp only [List.cons_append, insertAfterId, List.append_eq]
    rw [if_neg fun hc => h.1 hc.symm, ih h.2]

theorem pagePush_full (pg : SPage) (x : String) (h : pg.items.length = pg.capacity) :
    pagePush pg x = pg := by
  simp [pagePush, h]

/-- C1: in the unguided-add path, once the pages list is at `max_pages` and
the last page is full, the promised backward scan for an opening crashes:
`curr_page.size()` calls the integer-valued `size` property, so adding "C" to
a container whose first page has an opening raises `TypeError` instead of
inserting "C" there.  Evaluation of the model at the failing input. -/
theorem C1_overflow_scan_crashes : addItemNone exC1 "C" = .error .typeError := rfl

/-- C3 counterexample: with a full target page and the page bound reached,
adding "B" does leave the page contents and pages list untouched, but the
item's `parent` reference is overwritten to the full target page (by
`Single_Page_Container._add_item` before the failing push), so the state is
not "exactly as before" as the claim asserts. -/
theorem C3_cex_parent_mutated :
    exC3.parentOf "B" = none ∧
    add_item_at_page exC3 0 "B" none = .ok exC3res ∧
    exC3res.pages = exC3.pages ∧
    exC3res.parentOf "B" = some (.page 0) :=
  ⟨rfl, rfl, rfl, rfl⟩

/-- C3 (amended): when the pages list has reached `max_pages` and the target
page (belonging to the container) is full, `add_item_at_page` returns without
raising, the item is not added — the target page's contents and the
container's pages list are exactly as before — but the item's `parent`
reference is redirected to the full target page; no other item's parent
changes. -/
theorem C3_amended_capacity_noop (c : MPC) (l1 l2 : List SPage) (pg : SPage)
    (x : String) (pos : Option Nat) (m : Nat)
    (hsplit : c.pages = l1 ++ pg :: l2)
    (hfirst : pg.id ∉ l1.map SPage.id)
    (hfull : pg.items.length = pg.capacity)
    (hmax : c.max_pages = some m)
    (hlen : c.pages.length = m) :
    ∃ c2, add_item_at_page c pg.id x pos = .ok c2 ∧
      c2.pages = c.pages ∧
      c2.parentOf x = some (.page pg.id) ∧
      (∀ y, y ≠ x → c2.parentOf y = c.parentOf y) ∧
      c2.nextId = c.nextId := by
  have hfind : findPage pg.id c.pages = some pg := by
    rw [hsplit]; exact findPage_split l1 l2 pg pg.id rfl hfirst
  have hcond : ¬(pg.items.length = pg.capacity ∧
      (c.max_pages = none ∨ c.pages.length < c.max_pages.getD 0)) := by
    rintro ⟨-, hsp | hsp⟩
    · rw [hmax] at hsp; cases hsp
    · rw [hmax] at hsp; simp only [Option.getD_some] at hsp; omega
  have hmod : modifyPage pg.id (fun pg2 => pagePush pg2 x) c.pages = c.pages := by
    rw [hsplit, modifyPage_split l1 l2 pg _ pg.id rfl hfirst, pagePush_full pg x hfull]
  unfold add_item_at_page
  rw [hfind]
  simp only [if_neg hcond]
  cases pos with
  | none =>
    refine ⟨_, rfl, ?_, ?_, ?_, ?_⟩
    · simpa [spcAddItemEnd, setParent] using hmod
    · simp [spcAddItemEnd, setParent]
    · intro y hy; simp [spcAddItemEnd, setParent, hy]
    · simp [spcAddItemEnd, setParent]
  | some i =>
    have hfind2 : findPage pg.id (setParent c x (some (.page pg.id))).pages = some pg := by
      simpa [setParent] using hfind
    have haddAt : pageAddAt pg i x = .ok pg := by
      simp [pageAddAt, hfull]
    simp only [spcAddItem, hfind2, haddAt]
    refine ⟨_, rfl, ?_, ?_, ?_, ?_⟩
    · simp only [setParent]
      rw [hsplit, modifyPage_split l1 l2 pg _ pg.id rfl hfirst]
    · simp [setParent]
    · intro y hy; simp [setParent, hy]
    · simp [setParent]

/-- C3 (amended) witness: the amended theorem applied at the concrete state
`exC3`. -/
theorem C3_amended_capacity_noop_witness :
    ∃ c2, add_item_at_page exC3 0 "B" none = .ok c2 ∧
      c2.pages = exC3.pages ∧
      c2.parentOf "B" = some (.page 0) ∧
      (∀ y, y ≠ "B" → c2.parentOf y = exC3.parentOf y) ∧
      c2.nextId = exC3.nextId :=
  C3_amended_capacity_noop exC3 [] []
    { id := 0, items := ["A"], capacity := 1 } "B" none 1
    (by decide) (by decide) (by decide) (by decide) (by decide)

/-- C2: with spare page capacity, adding an item to a full target page of the
container splits the page: exactly one new page appears, immediately after
the target, holding exactly the target's previous tail item, and the new item
lands in the target page at the requested position (appended when no
position is given). -/
theorem C2_overflow_split (c : MPC) (l1 l2 : List SPage) (pg : SPage)
    (x : String) (pos : Option Nat)
    (hsplit : c.pages = l1 ++ pg :: l2)
    (hfirst : pg.id ∉ l1.map SPage.id)
    (hfull : pg.items.length = pg.capacity)
    (hpc : pg.capacity = c.page_capacity)
    (hpos0 : 0 < c.page_capacity)
    (hspare : c.max_pages = none ∨ c.pages.length < c.max_pages.getD 0)
    (hposok : ∀ i, pos = some i → i ≤ c.page_capacity - 1) :
    ∃ last c2,
      pg.items.getLast? = some last ∧
      add_item_at_page c pg.id x pos = .ok c2 ∧
      c2.pages = l1 ++
        ({ pg with items := match pos with
            | none => pg.items.dropLast ++ [x]
            | some i => pg.items.dropLast.insertIdx i x } : SPage) ::
        ({ id := c.nextId, items := [last], capacity := c.page_capacity } : SPage) :: l2 := by
  have hne : pg.items ≠ [] := by
    intro h0
    rw [h0] at hfull
    simp only [List.length_nil] at hfull
    omega
  obtain ⟨last, hlast⟩ := Option.isSome_iff_exists.mp (List.getLast?_isSome.mpr hne)
  have hfind : findPage pg.id c.pages = some pg := by
    rw [hsplit]; exact findPage_split _ _ _ _ rfl hfirst
  have hcond : pg.items.length = pg.capacity ∧
      (c.max_pages = none ∨ c.pages.length < c.max_pages.getD 0) := ⟨hfull, hspare⟩
  have hcapne : pg.items.dropLast.length ≠ pg.capacity := by
    rw [List.length_dropLast]
    omega
  refine ⟨last, ?_⟩
  unfold add_item_at_page
  rw [hfind]
  simp only [if_pos hcond]
  simp only [spcRemoveLast, hfind, hlast]
  simp only [mkPage, List.foldl_cons, List.foldl_nil, setParent, pagePush, List.length_nil]
  rw [if_neg (by omega : ¬(0 : Nat) = c.page_capacity)]
  rw [hsplit]
  rw [modifyPage_split l1 l2 pg _ pg.id rfl hfirst]
  simp only [pagesAddAfter]
  rw [if_neg (by
    rcases hspare with hsp | hsp
    · simp [hsp]
    · rw [hsplit] at hsp
      cases hmx : c.max_pages with
      | none => simp
      | some m =>
        rw [hmx] at hsp
        simp only [Option.getD_some, List.length_append, List.length_cons] at hsp
        simp only [hmx, List.length_append, List.length_cons, Option.some_inj]
        omega)]
  simp only [List.nil_append]
  rw [insertAfterId_split l1 l2
    { id := pg.id, items := pg.items.dropLast, capacity := pg.capacity }
    { id := c.nextId, items := [last], capacity := c.page_capacity } pg.id rfl hfirst]
  cases pos with
  | none =>
    simp only [spcAddItem, spcAddItemEnd, setParent]
    refine ⟨_, trivial, rfl, ?_⟩
    rw [modifyPage_split l1 ({ id := c.nextId, items := [last], capacity := c.page_capacity } :: l2)
      { id := pg.id, items := pg.items.dropLast, capacity := pg.capacity } _ pg.id rfl hfirst]
    simp only [pagePush]
    rw [if_neg hcapne]
  | some i =>
    have hile : i ≤ c.page_capacity - 1 := hposok i rfl
    simp only [spcAddItem, setParent]
    rw [findPage_split l1 ({ id := c.nextId, items := [last], capacity := c.page_capacity } :: l2)
      { id := pg.id, items := pg.items.dropLast, capacity := pg.capacity } pg.id rfl hfirst]
    simp only [pageAddAt]
    rw [if_neg hcapne]
    rw [if_neg (by
      rw [List.length_dropLast]
      omega : ¬pg.items.dropLast.length < i)]
    refine ⟨_, trivial, rfl, ?_⟩
    rw [modifyPage_split l1 ({ id := c.nextId, items := [last], capacity := c.page_capacity } :: l2)
      { id := pg.id, items := pg.items.dropLast, capacity := pg.capacity } _ pg.id rfl hfirst]

/-- C2 witness: the split theorem applied to the one-page container `exC2`
(full page `["A", "B"]`, spare page capacity): "B" is evicted onto a fresh
page placed right after, and "C" is appended to the target. -/
theorem C2_overflow_split_witness :
    ∃ last c2,
      (["A", "B"] : List String).getLast? = some last ∧
      add_item_at_page exC2 0 "C" none = .ok c2 ∧
      c2.pages = [{ id := 0, items := ["A", "C"], capacity := 2 },
                  { id := 1, items := [last], capacity := 2 }] :=
  C2_overflow_split exC2 [] [] { id := 0, items := ["A", "B"], capacity := 2 } "C" none
    rfl (by decide) rfl rfl (by decide) (Or.inr (by decide)) (fun i h => nomatch h)

/-- C4: `Home.move_item_to_dock` removes the item from its page without
pruning: moving the sole item "A" of the only page to the dock succeeds, but
the emptied page (zero items) is still reachable from the pages list.
Evaluation of the model at the failing input. -/
theorem C4_empty_page_left_reachable :
    move_item_to_dock exC4 "A" none = .ok exC4res ∧
    exC4res.dock.items = ["A"] ∧
    exC4res.mpc.pages.map SPage.items = [[]] :=
  ⟨rfl, rfl, rfl⟩

/-- C7: when the dock is at capacity, `move_item_to_dock` on a registered
item returns with the whole home state (dock, pages, parent references)
unchanged; and in the concrete Scenario B (dock capacity 2), moving "A" then
"B" fills the dock with `["A", "B"]`, the third call for "C" changes
nothing, and "C" stays on its page with its parent reference intact. -/
theorem C7_dock_capacity :
    (∀ (h : HomeS) (name : String) (pos : Option Nat),
        (h.apps.lookup name).isSome = true →
        h.dock.items.length = h.dock.capacity →
        move_item_to_dock h name pos = .ok h) ∧
    (move_item_to_dock scenB "A" none = .ok scenB1 ∧
     move_item_to_dock scenB1 "B" none = .ok scenB2 ∧
     scenB2.dock.items = ["A", "B"] ∧
     move_item_to_dock scenB2 "C" none = .ok scenB2 ∧
     scenB2.mpc.parentOf "C" = some (.page 0) ∧
     scenB2.mpc.pages.map SPage.items = [["C"]]) := by
  constructor
  · intro h name pos hsome hcap
    unfold move_item_to_dock
    rw [if_neg, if_pos hcap]
    rintro ⟨h1, -⟩
    rw [Option.isNone_iff_eq_none] at h1
    rw [h1] at hsome
    cases hsome
  · exact ⟨rfl, rfl, rfl, rfl, rfl, rfl⟩

/-- C7 witness: the capacity part of the theorem applied at the concrete
full-dock home `exC7full`. -/
theorem C7_dock_capacity_witness :
    ((exC7full.apps.lookup "A").isSome = true ∧
      exC7full.dock.items.length = exC7full.dock.capacity) ∧
    move_item_to_dock exC7full "A" none = .ok exC7full :=
  ⟨⟨by decide, by decide⟩,
    C7_dock_capacity.1 exC7full "A" none (by decide) (by decide)⟩

/-- C8 counterexample: `terminate_app` on a name that is not registered does
not report NotFound — the dictionary access `self._apps[app_name]` raises
`KeyError`, which propagates to the caller. -/
theorem C8_cex_terminate_raises :
    exC8.apps.lookup "Zzz" = none ∧
    terminate_app exC8 "Zzz" = .error .keyError :=
  ⟨rfl, rfl⟩

/-- C8 (amended): `run_app` on an unregistered name reports failure as a
return value (`False`) without raising and leaves the state (running-apps
queue included) unchanged, but `terminate_app` on an unregistered name raises
`KeyError` across the boundary instead of reporting a result — so not every
public mutation reports failure as a result value. -/
theorem C8_amended_unknown_name (h : HomeS) (name : String)
    (hlk : h.apps.lookup name = none) :
    run_app h name = (h, some false) ∧
    terminate_app h name = .error .keyError := by
  constructor
  · unfold run_app
    rw [hlk]
  · unfold terminate_app
    rw [hlk]

/-- C8 (amended) witness: the amended theorem applied at the concrete home
`exC8` and the unregistered name "Zzz". -/
theorem C8_amended_unknown_name_witness :
    exC8.apps.lookup "Zzz" = none ∧
    run_app exC8 "Zzz" = (exC8, some false) ∧
    terminate_app exC8 "Zzz" = .error .keyError :=
  ⟨rfl, (C8_amended_unknown_name exC8 "Zzz" rfl).1,
    (C8_amended_unknown_name exC8 "Zzz" rfl).2⟩

/-- C9: the `Home()` built with default arguments succeeds, its dock holds
exactly the first four default apps in order, and none of those four apps is
on any home-screen page. -/
theorem C9_default_dock :
    buildHome defaultApps 3 4 (some 5) 4 = .ok defaultHome ∧
    defaultHome.dock.items = ["Phone", "Mail", "Safari", "Music"] ∧
    ∀ pg ∈ defaultHome.mpc.pages,
      ∀ n ∈ ["Phone", "Mail", "Safari", "Music"], n ∉ pg.items := by
  refine ⟨rfl, rfl, ?_⟩
  decide

/-- C10: in the default `Home()`, an app's `can_delete` flag is `false`
exactly for Phone, Settings, Clock and Camera, and `delete_app` on each of
those four is a no-op that leaves the whole state (registry included)
unchanged. -/
theorem C10_protected_apps :
    (∀ p ∈ defaultHome.apps, p.2 = false ↔ p.1 ∈ protectedApps) ∧
    ∀ n ∈ protectedApps,
      (defaultHome.apps.lookup n).isSome ∧ delete_app defaultHome n = .ok defaultHome := by
  refine ⟨by decide, ?_⟩
  intro n hn
  have hn4 : n = "Phone" ∨ n = "Settings" ∨ n = "Clock" ∨ n = "Camera" := by
    simpa [protectedApps] using hn
  rcases hn4 with rfl | rfl | rfl | rfl <;> exact ⟨by decide, rfl⟩

/-! ### Linked-list integrity: walk lemmas -/

theorem updf_same (f : Nat → Option Nat) (k : Nat) (v : Option Nat) : updf f k v k = v := by
  simp [updf]

theorem updf_ne (f : Nat → Option Nat) (k : Nat) (v : Option Nat) (n : Nat) (h : n ≠ k) :
    updf f k v n = f n := by
  simp [updf, h]

/-- `Chain'` implication that only needs the step implication on members of
the list. -/
theorem chain_imp_mem {R S : Nat → Nat → Prop} :
    ∀ (l : List Nat), (∀ a ∈ l, ∀ b ∈ l, R a b → S a b) →
      List.Chain' R l → List.Chain' S l := by
  intro l
  induction l with
  | nil => intro _ _; exact List.chain'_nil
  | cons a t ih =>
    intro himp hc
    cases t with
    | nil => exact List.chain'_singleton a
    | cons b u =>
      rw [List.chain'_cons] at hc ⊢
      refine ⟨himp a (by simp) b (by simp) hc.1, ih ?_ hc.2⟩
      intro x hx y hy
      exact himp x (List.mem_cons_of_mem a hx) y (List.mem_cons_of_mem a hy)

theorem walkFwd_eq (st : DLL) :
    ∀ (l : List Nat) (fuel : Nat), l.length ≤ fuel →
      List.Chain' (fun a b => st.next a = some b) l →
      (∀ a, l.getLast? = some a → st.next a = none) →
      walkFwd st fuel l.head? = l := by
  intro l
  induction l with
  | nil =>
    intro fuel _ _ _
    cases fuel <;> rfl
  | cons a t ih =>
    intro fuel hfuel hch hlast
    obtain ⟨f, rfl⟩ : ∃ f, fuel = f + 1 := by
      cases fuel with
      | zero => simp at hfuel
      | succ f => exact ⟨f, rfl⟩
    show a :: walkFwd st f (st.next a) = a :: t
    have hnext : st.next a = t.head? := by
      cases t with
      | nil => exact hlast a rfl
      | cons b u => exact (List.chain'_cons.mp hch).1
    rw [hnext]
    refine congrArg (a :: ·) (ih f ?_ ?_ ?_)
    · simpa using hfuel
    · exact hch.tail
    · intro x hx
      apply hlast
      cases t with
      | nil => cases hx
      | cons b u => rw [List.getLast?_cons_cons]; exact hx

theorem walkBwd_eq_flip (st : DLL) :
    ∀ (fuel : Nat) (o : Option Nat), walkBwd st fuel o = walkFwd (flipDLL st) fuel o := by
  intro fuel
  induction fuel with
  | zero => intro o; rfl
  | succ f ih =>
    intro o
    cases o with
    | none => rfl
    | some a =>
      show a :: walkBwd st f (st.prev a) = a :: walkFwd (flipDLL st) f ((flipDLL st).next a)
      rw [ih]
      rfl

theorem rep_walkFwd (st : DLL) (l : List Nat) (h : Rep st l) :
    walkFwd st st.size st.head = l := by
  rw [h.head_eq, h.size_eq]
  exact walkFwd_eq st l l.length le_rfl
    (chain_imp_mem l (fun a _ b _ hab => hab.1) h.chain) h.last_next

theorem rep_walkBwd (st : DLL) (l : List Nat) (h : Rep st l) :
    walkBwd st st.size st.tail = l.reverse := by
  rw [walkBwd_eq_flip, h.tail_eq, h.size_eq]
  have hh : l.getLast? = l.reverse.head? := by
    rw [List.head?_reverse]
  rw [hh]
  have hlen : l.reverse.length = l.length := List.length_reverse l
  refine (walkFwd_eq (flipDLL st) l.reverse l.length hlen.le ?_ ?_).trans rfl
  · rw [List.chain'_reverse]
    exact chain_imp_mem l (fun a _ b _ hab => hab.2) h.chain
  · intro a ha
    rw [List.getLast?_reverse] at ha
    exact h.head_prev a ha

/-! ### Linked-list integrity: preservation of the representation -/

theorem rep_push (st : DLL) (l : List Nat) (n : Nat) (h : Rep st l) (hn : n ∉ l) :
    Rep (push st n).1 (if st.capacity = some l.length then l else l ++ [n]) := by
  by_cases hcap : capAtMax st
  · rw [if_pos (by rw [← h.size_eq]; exact hcap)]
    unfold push
    rw [if_pos hcap]
    exact h
  · rw [if_neg (by rw [← h.size_eq]; exact hcap)]
    unfold push
    rw [if_neg hcap]
    rcases List.eq_nil_or_concat l with rfl | ⟨l0, t, rfl⟩
    · have hemp : st.size = 0 ∧ st.head = none ∧ st.tail = none :=
        ⟨by simpa using h.size_eq, by simpa using h.head_eq, by simpa using h.tail_eq⟩
      rw [if_pos hemp]
      refine ⟨rfl, rfl, by simp [h.size_eq], by simp, List.chain'_singleton n, ?_, ?_⟩
      · intro a ha
        obtain rfl : n = a := by simpa using ha
        exact updf_same _ _ _
      · intro a ha
        obtain rfl : n = a := by simpa using ha
        exact updf_same _ _ _
    · rw [List.concat_eq_append] at h hn ⊢
      have hne : ¬(st.size = 0 ∧ st.head = none ∧ st.tail = none) := by
        rintro ⟨h0, -, -⟩
        rw [h.size_eq] at h0
        simp at h0
      rw [if_neg hne]
      have htail : st.tail = some t := by rw [h.tail_eq, List.getLast?_concat]
      have htl : t ∈ l0 ++ [t] := by simp
      have htn : t ≠ n := fun he => hn (he ▸ htl)
      simp only [htail]
      refine ⟨?_, ?_, ?_, ?_, ?_, ?_, ?_⟩
      · show st.head = ((l0 ++ [t]) ++ [n]).head?
        rw [h.head_eq]
        exact (List.head?_append_of_ne_nil _ (by simp)).symm
      · show some n = ((l0 ++ [t]) ++ [n]).getLast?
        rw [List.getLast?_concat]
      · show st.size + 1 = ((l0 ++ [t]) ++ [n]).length
        rw [h.size_eq]
        simp
      · have hnodup := h.nodup
        simp only [List.nodup_append, List.nodup_cons, List.not_mem_nil, not_false_iff,
          List.nodup_nil, and_true, List.disjoint_singleton] at hnodup ⊢
        simp only [List.mem_append, List.mem_singleton] at hn ⊢
        tauto
      · rw [List.chain'_append]
        refine ⟨?_, List.chain'_singleton n, ?_⟩
        · refine chain_imp_mem _ ?_ h.chain
          intro x hx y hy hxy
          have hxn : x ≠ n := fun he => hn (he ▸ hx)
          have hyn : y ≠ n := fun he => hn (he ▸ hy)
          constructor
          · show updf (updf st.next t (some n)) n none x = some y
            rcases eq_or_ne x t with rfl | hxt
            · exact absurd hxy.1 (by rw [h.last_next x (List.getLast?_concat _)]; simp)
            · rw [updf_ne _ _ _ _ hxn, updf_ne _ _ _ _ hxt]
              exact hxy.1
          · show updf st.prev n (some t) y = some x
            rw [updf_ne _ _ _ _ hyn]
            exact hxy.2
        · intro x hx y hy
          obtain rfl : t = x := by
            rw [List.getLast?_concat] at hx
            simpa using hx
          obtain rfl : n = y := by simpa using hy
          constructor
          · show updf (updf st.next t (some n)) n none t = some n
            rw [updf_ne _ _ _ _ htn, updf_same]
          · show updf st.prev n (some t) n = some t
            rw [updf_same]
      · intro a ha
        rw [List.getLast?_concat] at ha
        obtain rfl : n = a := by simpa using ha
        show updf (updf st.next t (some n)) n none n = none
        rw [updf_same]
      · intro a ha
        rw [List.head?_append_of_ne_nil _ (by simp : l0 ++ [t] ≠ [])] at ha
        have haml : a ∈ l0 ++ [t] := List.mem_of_mem_head? ha
        have han : a ≠ n := fun he => hn (he ▸ haml)
        show updf st.prev n (some t) a = none
        rw [updf_ne _ _ _ _ han]
        exact h.head_prev a ha

theorem rep_push_front (st : DLL) (l : List Nat) (n : Nat) (h : Rep st l) (hn : n ∉ l) :
    Rep (push_front st n).1 (if st.capacity = some l.length then l else n :: l) := by
  by_cases hcap : capAtMax st
  · rw [if_pos (by rw [← h.size_eq]; exact hcap)]
    unfold push_front
    rw [if_pos hcap]
    exact h
  · rw [if_neg (by rw [← h.size_eq]; exact hcap)]
    unfold push_front
    rw [if_neg hcap]
    cases l with
    | nil =>
      have hemp : st.size = 0 ∧ st.head = none ∧ st.tail = none :=
        ⟨by simpa using h.size_eq, by simpa using h.head_eq, by simpa using h.tail_eq⟩
      rw [if_pos hemp]
      unfold push
      rw [if_neg hcap, if_pos hemp]
      refine ⟨rfl, rfl, by simp [h.size_eq], by simp, List.chain'_singleton n, ?_, ?_⟩
      · intro a ha
        obtain rfl : n = a := by simpa using ha
        exact updf_same _ _ _
      · intro a ha
        obtain rfl : n = a := by simpa using ha
        exact updf_same _ _ _
    | cons a rest =>
      have hne : ¬(st.size = 0 ∧ st.head = none ∧ st.tail = none) := by
        rintro ⟨h0, -, -⟩
        rw [h.size_eq] at h0
        simp at h0
      rw [if_neg hne]
      have hhead : st.head = some a := by rw [h.head_eq]; rfl
      have hal : a ∈ a :: rest := by simp
      have han : a ≠ n := fun he => hn (he ▸ hal)
      simp only [hhead]
      refine ⟨rfl, ?_, ?_, ?_, ?_, ?_, ?_⟩
      · show st.tail = (n :: a :: rest).getLast?
        rw [h.tail_eq, List.getLast?_cons_cons]
      · show st.size + 1 = (n :: a :: rest).length
        rw [h.size_eq]
        simp
      · have hnodup := h.nodup
        simp only [List.nodup_cons] at hnodup ⊢
        exact ⟨by simpa using hn, hnodup⟩
      · rw [List.chain'_cons]
        constructor
        · constructor
          · show updf st.next n (some a) n = some a
            rw [updf_same]
          · show updf (updf st.prev a (some n)) n none a = some n
            rw [updf_ne _ _ _ _ han, updf_same]
        · refine chain_imp_mem _ ?_ h.chain
          intro x hx y hy hxy
          have hxn : x ≠ n := fun he => hn (he ▸ hx)
          have hyn : y ≠ n := fun he => hn (he ▸ hy)
          constructor
          · show updf st.next n (some a) x = some y
            rw [updf_ne _ _ _ _ hxn]
            exact hxy.1
          · show updf (updf st.prev a (some n)) n none y = some x
            rcases eq_or_ne y a with rfl | hya
            · exact absurd hxy.2 (by rw [h.head_prev y rfl]; simp)
            · rw [updf_ne _ _ _ _ hyn, updf_ne _ _ _ _ hya]
              exact hxy.2
      · intro b hb
        rw [List.getLast?_cons_cons] at hb
        have hbl : b ∈ a :: rest := List.mem_of_mem_getLast? hb
        have hbn : b ≠ n := fun he => hn (he ▸ hbl)
        show updf st.next n (some a) b = none
        rw [updf_ne _ _ _ _ hbn]
        exact h.last_next b hb
      · intro b hb
        obtain rfl : n = b := by simpa using hb
        show updf (updf st.prev a (some n)) n none n = none
        rw [updf_same]

theorem rep_remove (st : DLL) (l : List Nat) (n : Nat) (h : Rep st l) (hn : n ∈ l) :
    Rep (removeNode st n) (l.erase n) := by
  obtain ⟨l1, l2, rfl⟩ := List.append_of_mem hn
  have hnd := h.nodup
  rw [List.nodup_append] at hnd
  have hnl1 : n ∉ l1 := fun hmem => hnd.2.2 hmem (by simp)
  have hnl2 : n ∉ l2 := by
    have := hnd.2.1
    rw [List.nodup_cons] at this
    exact this.1
  have hdisj : ∀ x ∈ l1, x ∉ n :: l2 := hnd.2.2
  have herase : (l1 ++ n :: l2).erase n = l1 ++ l2 := by
    rw [List.erase_append_right _ hnl1, List.erase_cons_head]
  rw [herase]
  have hsz : st.size = l1.length + l2.length + 1 := by
    rw [h.size_eq]
    simp only [List.length_append, List.length_cons]
    omega
  have hsz0 : ¬st.size = 0 := by omega
  have hch := h.chain
  rw [List.chain'_append] at hch
  obtain ⟨hch1, hch2, hjun⟩ := hch
  have hnodup12 : (l1 ++ l2).Nodup := by
    rw [List.nodup_append]
    exact ⟨hnd.1, hnd.2.1.of_cons, fun x hx hx2 => hdisj x hx (List.mem_cons_of_mem n hx2)⟩
  unfold removeNode
  rw [if_neg hsz0]
  rcases List.eq_nil_or_concat l1 with rfl | ⟨l1x, p, rfl⟩
  · -- n is the head node
    have hprevn : st.prev n = none := h.head_prev n rfl
    simp only [hprevn]
    cases l2 with
    | nil =>
      have hnextn : st.next n = none := h.last_next n rfl
      simp only [hnextn]
      refine ⟨rfl, rfl, ?_, by simp, List.chain'_nil, ?_, ?_⟩
      · show st.size - 1 = (([] : List Nat) ++ ([] : List Nat)).length
        simp only [List.append_nil, List.length_nil] at hsz ⊢
        omega
      · intro a ha; cases ha
      · intro a ha; cases ha
    | cons b l2x =>
      have hRnb : st.next n = some b ∧ st.prev b = some n := (List.chain'_cons.mp hch2).1
      have hbn : b ≠ n := fun he => hnl2 (he ▸ (by simp : b ∈ b :: l2x))
      simp only [hRnb.1]
      refine ⟨rfl, ?_, ?_, by simpa using hnodup12, ?_, ?_, ?_⟩
      · show st.tail = (([] : List Nat) ++ b :: l2x).getLast?
        rw [h.tail_eq]
        simp [List.getLast?_cons_cons]
      · show st.size - 1 = (([] : List Nat) ++ b :: l2x).length
        simp only [List.nil_append, List.length_cons, List.length_nil] at hsz ⊢
        omega
      · show List.Chain' _ (([] : List Nat) ++ b :: l2x)
        rw [List.nil_append]
        refine chain_imp_mem _ ?_ hch2.tail
        intro x hx y hy hxy
        have hxn : x ≠ n := fun he => hnl2 (he ▸ hx)
        have hyn : y ≠ n := fun he => hnl2 (he ▸ hy)
        constructor
        · show updf st.next n none x = some y
          rw [updf_ne _ _ _ _ hxn]
          exact hxy.1
        · show updf (updf st.prev b none) n none y = some x
          rcases eq_or_ne y b with rfl | hyb
          · exact absurd hxy.2 (by rw [hRnb.2]; simp [Ne.symm hxn])
          · rw [updf_ne _ _ _ _ hyn, updf_ne _ _ _ _ hyb]
            exact hxy.2
      · intro a ha
        rw [List.nil_append] at ha
        have haml : a ∈ b :: l2x := List.mem_of_mem_getLast? ha
        have han : a ≠ n := fun he => hnl2 (he ▸ haml)
        show updf st.next n none a = none
        rw [updf_ne _ _ _ _ han]
        exact h.last_next a (by rw [List.nil_append, List.getLast?_cons_cons]; exact ha)
      · intro a ha
        obtain rfl : b = a := by simpa using ha
        show updf (updf st.prev b none) n none b = none
        rw [updf_ne _ _ _ _ hbn, updf_same]
  · -- n has the predecessor p
    rw [List.concat_eq_append] at hnl1 hdisj hch1 hjun hsz hnodup12 h ⊢
    have hpl1 : p ∈ l1x ++ [p] := by simp
    have hpn : p ≠ n := fun he => hnl1 (he ▸ hpl1)
    have hRpn : st.next p = some n ∧ st.prev n = some p :=
      hjun p (List.getLast?_concat _) n rfl
    simp only [hRpn.2]
    rw [show (updf st.next p (st.next n)) n = st.next n from updf_ne _ _ _ _ (Ne.symm hpn)]
    cases l2 with
    | nil =>
      have hnextn : st.next n = none := by
        refine h.last_next n ?_
        rw [List.getLast?_append_cons]
        rfl
      simp only [hnextn]
      refine ⟨?_, ?_, ?_, by simpa using hnodup12, ?_, ?_, ?_⟩
      · show st.head = (l1x ++ [p] ++ ([] : List Nat)).head?
        rw [h.head_eq, List.append_nil]
        exact List.head?_append_of_ne_nil _ (by simp)
      · show some p = (l1x ++ [p] ++ ([] : List Nat)).getLast?
        rw [List.append_nil, List.getLast?_concat]
      · show st.size - 1 = (l1x ++ [p] ++ ([] : List Nat)).length
        simp only [List.append_nil, List.length_append, List.length_singleton,
          List.length_nil] at hsz ⊢
        omega
      · show List.Chain' _ (l1x ++ [p] ++ ([] : List Nat))
        rw [List.append_nil]
        refine chain_imp_mem _ ?_ hch1
        intro x hx y hy hxy
        have hxn : x ≠ n := fun he => hnl1 (he ▸ hx)
        have hyn : y ≠ n := fun he => hnl1 (he ▸ hy)
        constructor
        · show updf (updf st.next p none) n none x = some y
          rcases eq_or_ne x p with rfl | hxp
          · exact absurd hxy.1 (by rw [hRpn.1]; simp [Ne.symm hyn])
          · rw [updf_ne _ _ _ _ hxn, updf_ne _ _ _ _ hxp]
            exact hxy.1
        · show updf st.prev n none y = some x
          rw [updf_ne _ _ _ _ hyn]
          exact hxy.2
      · intro a ha
        rw [List.append_nil, List.getLast?_concat] at ha
        obtain rfl : p = a := by simpa using ha
        show updf (updf st.next p none) n none p = none
        rw [updf_ne _ _ _ _ hpn, updf_same]
      · intro a ha
        rw [List.append_nil] at ha
        have haml : a ∈ l1x ++ [p] := List.mem_of_mem_head? ha
        have han : a ≠ n := fun he => hnl1 (he ▸ haml)
        show updf st.prev n none a = none
        rw [updf_ne _ _ _ _ han]
        refine h.head_prev a ?_
        rw [List.head?_append_of_ne_nil _ (by simp : l1x ++ [p] ≠ [])]
        exact ha
    | cons b l2x =>
      have hRnb : st.next n = some b ∧ st.prev b = some n := (List.chain'_cons.mp hch2).1
      have hbn : b ≠ n := fun he => hnl2 (he ▸ (by simp : b ∈ b :: l2x))
      have hbl1 : b ∉ l1x ++ [p] := fun hmem => hdisj b hmem (by simp)
      have hbp : b ≠ p := fun he => hbl1 (he ▸ hpl1)
      simp only [hRnb.1]
      refine ⟨?_, ?_, ?_, by simpa using hnodup12, ?_, ?_, ?_⟩
      · show st.head = (l1x ++ [p] ++ b :: l2x).head?
        rw [h.head_eq]
        rw [List.head?_append_of_ne_nil _ (by simp : l1x ++ [p] ≠ []),
          List.head?_append_of_ne_nil _ (by simp : l1x ++ [p] ≠ [])]
      · show st.tail = (l1x ++ [p] ++ b :: l2x).getLast?
        rw [h.tail_eq, List.getLast?_append_cons, List.getLast?_append_cons,
          List.getLast?_cons_cons]
      · show st.size - 1 = (l1x ++ [p] ++ b :: l2x).length
        simp only [List.length_append, List.length_singleton, List.length_cons] at hsz ⊢
        omega
      · rw [List.chain'_append]
        refine ⟨?_, ?_, ?_⟩
        · refine chain_imp_mem _ ?_ hch1
          intro x hx y hy hxy
          have hxn : x ≠ n := fun he => hnl1 (he ▸ hx)
          have hyn : y ≠ n := fun he => hnl1 (he ▸ hy)
          have hyb : y ≠ b := fun he => hbl1 (he ▸ hy)
          constructor
          · show updf (updf st.next p (some b)) n none x = some y
            rcases eq_or_ne x p with rfl | hxp
            · exact absurd hxy.1 (by rw [hRpn.1]; simp [Ne.symm hyn])
            · rw [updf_ne _ _ _ _ hxn, updf_ne _ _ _ _ hxp]
              exact hxy.1
          · show updf (updf st.prev b (some p)) n none y = some x
            rw [updf_ne _ _ _ _ hyn, updf_ne _ _ _ _ hyb]
            exact hxy.2
        · refine chain_imp_mem _ ?_ hch2.tail
          intro x hx y hy hxy
          have hxn : x ≠ n := fun he => hnl2 (he ▸ hx)
          have hyn : y ≠ n := fun he => hnl2 (he ▸ hy)
          have hxp : x ≠ p := fun he => hdisj p hpl1 (he ▸ List.mem_cons_of_mem n hx)
          constructor
          · show updf (updf st.next p (some b)) n none x = some y
            rw [updf_ne _ _ _ _ hxn, updf_ne _ _ _ _ hxp]
            exact hxy.1
          · show updf (updf st.prev b (some p)) n none y = some x
            rcases eq_or_ne y b with rfl | hyb
            · exact absurd hxy.2 (by rw [hRnb.2]; simp [Ne.symm hxn])
            · rw [updf_ne _ _ _ _ hyn, updf_ne _ _ _ _ hyb]
              exact hxy.2
        · intro x hx y hy
          obtain rfl : p = x := by
            rw [List.getLast?_concat] at hx
            simpa using hx
          obtain rfl : b = y := by simpa using hy
          constructor
          · show updf (updf st.next p (some b)) n none p = some b
            rw [updf_ne _ _ _ _ hpn, updf_same]
          · show updf (updf st.prev b (some p)) n none b = some p
            rw [updf_ne _ _ _ _ hbn, updf_same]
      · intro a ha
        rw [List.getLast?_append_cons] at ha
        have haml : a ∈ b :: l2x := List.mem_of_mem_getLast? ha
        have han : a ≠ n := fun he => hnl2 (he ▸ haml)
        have hap : a ≠ p := fun he => hdisj p hpl1 (he ▸ List.mem_cons_of_mem n haml)
        show updf (updf st.next p (some b)) n none a = none
        rw [updf_ne _ _ _ _ han, updf_ne _ _ _ _ hap]
        refine h.last_next a ?_
        rw [List.getLast?_append_cons, List.getLast?_cons_cons]
        exact ha
      · intro a ha
        rw [List.head?_append_of_ne_nil _ (by simp : l1x ++ [p] ≠ [])] at ha
        have haml : a ∈ l1x ++ [p] := List.mem_of_mem_head? ha
        have han : a ≠ n := fun he => hnl1 (he ▸ haml)
        have hab : a ≠ b := fun he => hbl1 (he ▸ haml)
        show updf (updf st.prev b (some p)) n none a = none
        rw [updf_ne _ _ _ _ han, updf_ne _ _ _ _ hab]
        refine h.head_prev a ?_
        rw [List.head?_append_of_ne_nil _ (by simp : l1x ++ [p] ≠ [])]
        exact ha

theorem rep_pop (st : DLL) (l : List Nat) (h : Rep st l) : Rep (pop st) l.dropLast := by
  unfold pop
  rcases List.eq_nil_or_concat l with rfl | ⟨l0, t, rfl⟩
  · rw [if_pos (by simpa using h.size_eq)]
    simpa using h
  · rw [List.concat_eq_append] at h ⊢
    have hsz0 : ¬st.size = 0 := by rw [h.size_eq]; simp
    rw [if_neg hsz0]
    have htail : st.tail = some t := by rw [h.tail_eq, List.getLast?_concat]
    simp only [htail]
    have htl0 : t ∉ l0 := by
      have hnd := h.nodup
      rw [List.nodup_append] at hnd
      exact fun hmem => hnd.2.2 hmem (by simp)
    have hrem := rep_remove st (l0 ++ [t]) t h (by simp)
    rw [List.erase_append_right _ htl0, List.erase_cons_head, List.append_nil] at hrem
    rwa [List.dropLast_concat]
theorem rep_pop_front (st : DLL) (l : List Nat) (h : Rep st l) : Rep (pop_front st) l.tail := by
  unfold pop_front
  cases l with
  | nil =>
    rw [if_pos (by simpa using h.size_eq)]
    exact h
  | cons a rest =>
    have hsz0 : ¬st.size = 0 := by rw [h.size_eq]; simp
    rw [if_neg hsz0]
    have hhead : st.head = some a := by rw [h.head_eq]; rfl
    simp only [hhead]
    have hrem := rep_remove st (a :: rest) a h (by simp)
    rwa [List.erase_cons_head] at hrem

theorem head?_append_cons (l1 : List Nat) (x : Nat) (l2 l2x : List Nat) :
    (l1 ++ x :: l2).head? = (l1 ++ x :: l2x).head? := by
  cases l1 <;> rfl

theorem insAfter_split (l1 l2 : List Nat) (a n : Nat) (h : a ∉ l1) :
    absOp.insAfter a n (l1 ++ a :: l2) = l1 ++ a :: n :: l2 := by
  induction l1 with
  | nil => simp [absOp.insAfter]
  | cons q t ih =>
    simp only [List.mem_cons, not_or] at h
    simp only [List.cons_append, absOp.insAfter, List.append_eq]
    rw [if_neg fun hc => h.1 hc.symm, ih h.2]

theorem insBefore_split (l1 l2 : List Nat) (a n : Nat) (h : a ∉ l1) :
    absOp.insBefore a n (l1 ++ a :: l2) = l1 ++ n :: a :: l2 := by
  induction l1 with
  | nil => simp [absOp.insBefore]
  | cons q t ih =>
    simp only [List.mem_cons, not_or] at h
    simp only [List.cons_append, absOp.insBefore, List.append_eq]
    rw [if_neg fun hc => h.1 hc.symm, ih h.2]

theorem rep_add_after (st : DLL) (l : List Nat) (a n : Nat) (h : Rep st l)
    (ha : a ∈ l) (hn : n ∉ l) :
    Rep (add_after st a n)
      (if st.capacity = some l.length then l else absOp.insAfter a n l) := by
  by_cases hcap : capAtMax st
  · rw [if_pos (by rw [← h.size_eq]; exact hcap)]
    unfold add_after
    rw [if_pos hcap]
    exact h
  · rw [if_neg (by rw [← h.size_eq]; exact hcap)]
    obtain ⟨l1, l2, rfl⟩ := List.append_of_mem ha
    have hnd := h.nodup
    rw [List.nodup_append] at hnd
    have hal1 : a ∉ l1 := fun hmem => hnd.2.2 hmem (by simp)
    have hal2 : a ∉ l2 := by
      have := hnd.2.1
      rw [List.nodup_cons] at this
      exact this.1
    have hdisj : ∀ x ∈ l1, x ∉ a :: l2 := hnd.2.2
    have hnl1 : n ∉ l1 := fun hmem => hn (List.mem_append_left _ hmem)
    have hnl2 : n ∉ l2 := fun hmem => hn (List.mem_append_right _ (List.mem_cons_of_mem a hmem))
    have han : a ≠ n := fun he => hn (he ▸ ha)
    rw [insAfter_split l1 l2 a n hal1]
    have hsz0 : ¬st.size = 0 := by
      rw [h.size_eq]
      simp
    unfold add_after
    rw [if_neg hcap, if_neg hsz0]
    have hch := h.chain
    rw [List.chain'_append] at hch
    obtain ⟨hch1, hch2, hjun⟩ := hch
    cases l2 with
    | nil =>
      have hnexta : st.next a = none := by
        refine h.last_next a ?_
        rw [List.getLast?_append_cons]
        rfl
      simp only [hnexta]
      rw [show updf (updf st.next n none) a (some n) n = none from by
        rw [updf_ne _ _ _ _ (Ne.symm han), updf_same]]
      refine ⟨?_, ?_, ?_, ?_, ?_, ?_, ?_⟩
      · show st.head = (l1 ++ a :: n :: ([] : List Nat)).head?
        rw [h.head_eq]
        exact head?_append_cons l1 a _ _
      · show some n = (l1 ++ a :: n :: ([] : List Nat)).getLast?
        rw [List.getLast?_append_cons, List.getLast?_cons_cons]
        rfl
      · show st.size + 1 = (l1 ++ a :: n :: ([] : List Nat)).length
        rw [h.size_eq]
        simp only [List.length_append, List.length_cons, List.length_nil]
      · rw [List.nodup_append]
        refine ⟨hnd.1, ?_, ?_⟩
        · simp [List.nodup_cons, han]
        · intro x hx hmem
          simp only [List.mem_cons, List.not_mem_nil, or_false] at hmem
          rcases hmem with rfl | rfl
          · exact hal1 hx
          · exact hnl1 hx
      · rw [List.chain'_append]
        refine ⟨?_, ?_, ?_⟩
        · refine chain_imp_mem _ ?_ hch1
          intro x hx y hy hxy
          have hxn : x ≠ n := fun he => hnl1 (he ▸ hx)
          have hyn : y ≠ n := fun he => hnl1 (he ▸ hy)
          have hxa : x ≠ a := fun he => hal1 (he ▸ hx)
          constructor
          · show updf (updf st.next n none) a (some n) x = some y
            rw [updf_ne _ _ _ _ hxa, updf_ne _ _ _ _ hxn]
            exact hxy.1
          · show updf st.prev n (some a) y = some x
            rw [updf_ne _ _ _ _ hyn]
            exact hxy.2
        · rw [List.chain'_cons]
          refine ⟨?_, List.chain'_singleton n⟩
          constructor
          · show updf (updf st.next n none) a (some n) a = some n
            rw [updf_same]
          · show updf st.prev n (some a) n = some a
            rw [updf_same]
        · intro x hx y hy
          obtain rfl : a = y := by simpa using hy
          have hxl1 : x ∈ l1 := List.mem_of_mem_getLast? hx
          have hR := hjun x hx a rfl
          have hxn : x ≠ n := fun he => hnl1 (he ▸ hxl1)
          have hxa : x ≠ a := fun he => hal1 (he ▸ hxl1)
          constructor
          · show updf (updf st.next n none) a (some n) x = some a
            rw [updf_ne _ _ _ _ hxa, updf_ne _ _ _ _ hxn]
            exact hR.1
          · show updf st.prev n (some a) a = some x
            rw [updf_ne _ _ _ _ han]
            exact hR.2
      · intro b hb
        rw [List.getLast?_append_cons, List.getLast?_cons_cons] at hb
        obtain rfl : n = b := by simpa using hb
        show updf (updf st.next n none) a (some n) n = none
        rw [updf_ne _ _ _ _ (Ne.symm han), updf_same]
      · intro b hb
        rw [head?_append_cons l1 a (n :: []) ([] : List Nat)] at hb
        have hbl : b ∈ l1 ++ a :: ([] : List Nat) := List.mem_of_mem_head? hb
        have hbn : b ≠ n := fun he => hn (he ▸ hbl)
        show updf st.prev n (some a) b = none
        rw [updf_ne _ _ _ _ hbn]
        exact h.head_prev b hb
    | cons b l2x =>
      have hRab : st.next a = some b ∧ st.prev b = some a := (List.chain'_cons.mp hch2).1
      have hbl2 : b ∈ a :: b :: l2x := by simp
      have hbn : b ≠ n := fun he => hn (he ▸ List.mem_append_right _ hbl2)
      have hba : b ≠ a := by
        intro he
        exact hal2 (he ▸ (by simp : b ∈ b :: l2x))
      have hbl1 : b ∉ l1 := fun hmem => hdisj b hmem hbl2
      simp only [hRab.1]
      rw [show updf (updf st.next n (some b)) a (some n) n = some b from by
        rw [updf_ne _ _ _ _ (Ne.symm han), updf_same]]
      refine ⟨?_, ?_, ?_, ?_, ?_, ?_, ?_⟩
      · show st.head = (l1 ++ a :: n :: b :: l2x).head?
        rw [h.head_eq]
        exact head?_append_cons l1 a _ _
      · show st.tail = (l1 ++ a :: n :: b :: l2x).getLast?
        simp [h.tail_eq, List.getLast?_append_cons, List.getLast?_cons_cons]
      · show st.size + 1 = (l1 ++ a :: n :: b :: l2x).length
        rw [h.size_eq]
        simp only [List.length_append, List.length_cons]
        omega
      · rw [List.nodup_append]
        refine ⟨hnd.1, ?_, ?_⟩
        · rw [List.nodup_cons]
          refine ⟨?_, ?_⟩
          · simp only [List.mem_cons, not_or]
            exact ⟨han, Ne.symm hba, fun hmem => hal2 (List.mem_cons_of_mem _ hmem)⟩
          · rw [List.nodup_cons]
            refine ⟨by simpa using hnl2, hnd.2.1.of_cons⟩
        · intro x hx hmem
          simp only [List.mem_cons] at hmem
          rcases hmem with rfl | rfl | rfl | hmem2
          · exact hal1 hx
          · exact hnl1 hx
          · exact hbl1 hx
          · exact hdisj x hx (by simp [hmem2])
      · rw [List.chain'_append]
        refine ⟨?_, ?_, ?_⟩
        · refine chain_imp_mem _ ?_ hch1
          intro x hx y hy hxy
          have hxn : x ≠ n := fun he => hnl1 (he ▸ hx)
          have hyn : y ≠ n := fun he => hnl1 (he ▸ hy)
          have hxa : x ≠ a := fun he => hal1 (he ▸ hx)
          have hyb : y ≠ b := fun he => hbl1 (he ▸ hy)
          constructor
          · show updf (updf st.next n (some b)) a (some n) x = some y
            rw [updf_ne _ _ _ _ hxa, updf_ne _ _ _ _ hxn]
            exact hxy.1
          · show updf (updf st.prev n (some a)) b (some n) y = some x
            rw [updf_ne _ _ _ _ hyb, updf_ne _ _ _ _ hyn]
            exact hxy.2
        · rw [List.chain'_cons]
          constructor
          · constructor
            · show updf (updf st.next n (some b)) a (some n) a = some n
              rw [updf_same]
            · show updf (updf st.prev n (some a)) b (some n) n = some a
              rw [updf_ne _ _ _ _ (Ne.symm hbn), updf_same]
          · rw [List.chain'_cons]
            constructor
            · constructor
              · show updf (updf st.next n (some b)) a (some n) n = some b
                rw [updf_ne _ _ _ _ (Ne.symm han), updf_same]
              · show updf (updf st.prev n (some a)) b (some n) b = some n
                rw [updf_same]
            · refine chain_imp_mem _ ?_ hch2.tail
              intro x hx y hy hxy
              have hxn : x ≠ n := fun he => hnl2 (he ▸ hx)
              have hyn : y ≠ n := fun he => hnl2 (he ▸ hy)
              have hxa : x ≠ a := fun he => hal2 (he ▸ hx)
              constructor
              · show updf (updf st.next n (some b)) a (some n) x = some y
                rw [updf_ne _ _ _ _ hxa, updf_ne _ _ _ _ hxn]
                exact hxy.1
              · show updf (updf st.prev n (some a)) b (some n) y = some x
                rcases eq_or_ne y b with rfl | hyb
                · exact absurd hxy.2 (by rw [hRab.2]; simp [Ne.symm hxa])
                · rw [updf_ne _ _ _ _ hyb, updf_ne _ _ _ _ hyn]
                  exact hxy.2
        · intro x hx y hy
          obtain rfl : a = y := by simpa using hy
          have hxl1 : x ∈ l1 := List.mem_of_mem_getLast? hx
          have hR := hjun x hx a rfl
          have hxn : x ≠ n := fun he => hnl1 (he ▸ hxl1)
          have hxa : x ≠ a := fun he => hal1 (he ▸ hxl1)
          constructor
          · show updf (updf st.next n (some b)) a (some n) x = some a
            rw [updf_ne _ _ _ _ hxa, updf_ne _ _ _ _ hxn]
            exact hR.1
          · show updf (updf st.prev n (some a)) b (some n) a = some x
            rw [updf_ne _ _ _ _ (Ne.symm hba), updf_ne _ _ _ _ han]
            exact hR.2
      · intro c hc
        rw [List.getLast?_append_cons, List.getLast?_cons_cons, List.getLast?_cons_cons] at hc
        have hcml : c ∈ b :: l2x := List.mem_of_mem_getLast? hc
        have hcn : c ≠ n := fun he => hnl2 (he ▸ hcml)
        have hca : c ≠ a := fun he => hal2 (he ▸ hcml)
        show updf (updf st.next n (some b)) a (some n) c = none
        rw [updf_ne _ _ _ _ hca, updf_ne _ _ _ _ hcn]
        refine h.last_next c ?_
        rw [List.getLast?_append_cons, List.getLast?_cons_cons]
        exact hc
      · intro c hc
        rw [head?_append_cons l1 a (n :: b :: l2x) (b :: l2x)] at hc
        have hcl : c ∈ l1 ++ a :: b :: l2x := List.mem_of_mem_head? hc
        have hcn : c ≠ n := fun he => hn (he ▸ hcl)
        have hprevc : st.prev c = none := h.head_prev c hc
        have hcb : c ≠ b := by
          intro he
          rw [he, hRab.2] at hprevc
          cases hprevc
        show updf (updf st.prev n (some a)) b (some n) c = none
        rw [updf_ne _ _ _ _ hcb, updf_ne _ _ _ _ hcn]
        exact hprevc

theorem rep_add_before (st : DLL) (l : List Nat) (a n : Nat) (h : Rep st l)
    (ha : a ∈ l) (hn : n ∉ l) :
    Rep (add_before st a n)
      (if st.capacity = some l.length then l else absOp.insBefore a n l) := by
  by_cases hcap : capAtMax st
  · rw [if_pos (by rw [← h.size_eq]; exact hcap)]
    unfold add_before
    rw [if_pos hcap]
    exact h
  · rw [if_neg (by rw [← h.size_eq]; exact hcap)]
    obtain ⟨l1, l2, rfl⟩ := List.append_of_mem ha
    have hnd := h.nodup
    rw [List.nodup_append] at hnd
    have hal1 : a ∉ l1 := fun hmem => hnd.2.2 hmem (by simp)
    have hal2 : a ∉ l2 := by
      have := hnd.2.1
      rw [List.nodup_cons] at this
      exact this.1
    have hdisj : ∀ x ∈ l1, x ∉ a :: l2 := hnd.2.2
    have hnl1 : n ∉ l1 := fun hmem => hn (List.mem_append_left _ hmem)
    have hn2 : n ∉ a :: l2 := fun hmem => hn (List.mem_append_right _ hmem)
    have han : a ≠ n := fun he => hn (he ▸ ha)
    rw [insBefore_split l1 l2 a n hal1]
    have hsz0 : ¬st.size = 0 := by
      rw [h.size_eq]
      simp
    unfold add_before
    rw [if_neg hcap, if_neg hsz0]
    have hch := h.chain
    rw [List.chain'_append] at hch
    obtain ⟨hch1, hch2, hjun⟩ := hch
    rcases List.eq_nil_or_concat l1 with rfl | ⟨l1x, p, rfl⟩
    · -- a is the head node
      have hpreva : st.prev a = none := h.head_prev a rfl
      simp only [hpreva]
      rw [show updf (updf st.prev n none) a (some n) n = none from by
        rw [updf_ne _ _ _ _ (Ne.symm han), updf_same]]
      refine ⟨rfl, ?_, ?_, ?_, ?_, ?_, ?_⟩
      · show st.tail = (([] : List Nat) ++ n :: a :: l2).getLast?
        rw [h.tail_eq, List.nil_append, List.nil_append, List.getLast?_cons_cons]
      · show st.size + 1 = (([] : List Nat) ++ n :: a :: l2).length
        rw [h.size_eq]
        simp only [List.nil_append, List.length_cons]
      · rw [List.nil_append, List.nodup_cons]
        exact ⟨hn2, hnd.2.1⟩
      · rw [List.nil_append, List.chain'_cons]
        constructor
        · constructor
          · show updf st.next n (some a) n = some a
            rw [updf_same]
          · show updf (updf st.prev n none) a (some n) a = some n
            rw [updf_same]
        · refine chain_imp_mem _ ?_ hch2
          intro x hx y hy hxy
          have hxn : x ≠ n := fun he => hn2 (he ▸ hx)
          have hyn : y ≠ n := fun he => hn2 (he ▸ hy)
          constructor
          · show updf st.next n (some a) x = some y
            rw [updf_ne _ _ _ _ hxn]
            exact hxy.1
          · show updf (updf st.prev n none) a (some n) y = some x
            rcases eq_or_ne y a with rfl | hya
            · exact absurd hxy.2 (by rw [hpreva]; simp)
            · rw [updf_ne _ _ _ _ hya, updf_ne _ _ _ _ hyn]
              exact hxy.2
      · intro b hb
        rw [List.nil_append, List.getLast?_cons_cons] at hb
        have hbml : b ∈ a :: l2 := List.mem_of_mem_getLast? hb
        have hbn : b ≠ n := fun he => hn2 (he ▸ hbml)
        show updf st.next n (some a) b = none
        rw [updf_ne _ _ _ _ hbn]
        exact h.last_next b hb
      · intro b hb
        rw [List.nil_append] at hb
        obtain rfl : n = b := by simpa using hb
        show updf (updf st.prev n none) a (some n) n = none
        rw [updf_ne _ _ _ _ (Ne.symm han), updf_same]
    · -- a has the predecessor p
      rw [List.concat_eq_append] at hnl1 hdisj hch1 hjun hal1 hnd h ⊢
      have hpl1 : p ∈ l1x ++ [p] := by simp
      have hpn : p ≠ n := fun he => hnl1 (he ▸ hpl1)
      have hpa : p ≠ a := fun he => hal1 (he ▸ hpl1)
      have hRpa : st.next p = some a ∧ st.prev a = some p :=
        hjun p (List.getLast?_concat _) a rfl
      simp only [hRpa.2]
      rw [show updf (updf st.prev n (some p)) a (some n) n = some p from by
        rw [updf_ne _ _ _ _ (Ne.symm han), updf_same]]
      refine ⟨?_, ?_, ?_, ?_, ?_, ?_, ?_⟩
      · show st.head = (l1x ++ [p] ++ n :: a :: l2).head?
        rw [h.head_eq,
          List.head?_append_of_ne_nil _ (by simp : l1x ++ [p] ≠ []),
          List.head?_append_of_ne_nil _ (by simp : l1x ++ [p] ≠ [])]
      · show st.tail = (l1x ++ [p] ++ n :: a :: l2).getLast?
        rw [h.tail_eq, List.getLast?_append_cons, List.getLast?_append_cons,
          List.getLast?_cons_cons]
      · show st.size + 1 = (l1x ++ [p] ++ n :: a :: l2).length
        rw [h.size_eq]
        simp only [List.length_append, List.length_cons]
        omega
      · rw [List.nodup_append]
        refine ⟨hnd.1, ?_, ?_⟩
        · rw [List.nodup_cons]
          exact ⟨hn2, hnd.2.1⟩
        · intro x hx hmem
          simp only [List.mem_cons] at hmem
          rcases hmem with rfl | hmem2
          · exact hnl1 hx
          · exact hdisj x hx (List.mem_cons.mpr hmem2)
      · rw [List.chain'_append]
        refine ⟨?_, ?_, ?_⟩
        · refine chain_imp_mem _ ?_ hch1
          intro x hx y hy hxy
          have hxn : x ≠ n := fun he => hnl1 (he ▸ hx)
          have hyn : y ≠ n := fun he => hnl1 (he ▸ hy)
          have hya : y ≠ a := fun he => hal1 (he ▸ hy)
          constructor
          · show updf (updf st.next n (some a)) p (some n) x = some y
            rcases eq_or_ne x p with rfl | hxp
            · exact absurd hxy.1 (by rw [hRpa.1]; simp [Ne.symm hya])
            · rw [updf_ne _ _ _ _ hxp, updf_ne _ _ _ _ hxn]
              exact hxy.1
          · show updf (updf st.prev n (some p)) a (some n) y = some x
            rw [updf_ne _ _ _ _ hya, updf_ne _ _ _ _ hyn]
            exact hxy.2
        · rw [List.chain'_cons]
          constructor
          · constructor
            · show updf (updf st.next n (some a)) p (some n) n = some a
              rw [updf_ne _ _ _ _ (Ne.symm hpn), updf_same]
            · show updf (updf st.prev n (some p)) a (some n) a = some n
              rw [updf_same]
          · refine chain_imp_mem _ ?_ hch2
            intro x hx y hy hxy
            have hxn : x ≠ n := fun he => hn2 (he ▸ hx)
            have hyn : y ≠ n := fun he => hn2 (he ▸ hy)
            have hxp : x ≠ p := fun he => hdisj p hpl1 (he ▸ hx)
            constructor
            · show updf (updf st.next n (some a)) p (some n) x = some y
              rw [updf_ne _ _ _ _ hxp, updf_ne _ _ _ _ hxn]
              exact hxy.1
            · show updf (updf st.prev n (some p)) a (some n) y = some x
              rcases eq_or_ne y a with rfl | hya
              · exact absurd hxy.2 (by rw [hRpa.2]; simp [Ne.symm hxp])
              · rw [updf_ne _ _ _ _ hya, updf_ne _ _ _ _ hyn]
                exact hxy.2
        · intro x hx y hy
          obtain rfl : p = x := by
            rw [List.getLast?_concat] at hx
            simpa using hx
          obtain rfl : n = y := by simpa using hy
          constructor
          · show updf (updf st.next n (some a)) p (some n) p = some n
            rw [updf_same]
          · show updf (updf st.prev n (some p)) a (some n) n = some p
            rw [updf_ne _ _ _ _ (Ne.symm han), updf_same]
      · intro b hb
        rw [List.getLast?_append_cons, List.getLast?_cons_cons] at hb
        have hbml : b ∈ a :: l2 := List.mem_of_mem_getLast? hb
        have hbn : b ≠ n := fun he => hn2 (he ▸ hbml)
        have hbp : b ≠ p := fun he => hdisj p hpl1 (he ▸ hbml)
        show updf (updf st.next n (some a)) p (some n) b = none
        rw [updf_ne _ _ _ _ hbp, updf_ne _ _ _ _ hbn]
        refine h.last_next b ?_
        rw [List.getLast?_append_cons]
        exact hb
      · intro b hb
        rw [List.head?_append_of_ne_nil _ (by simp : l1x ++ [p] ≠ [])] at hb
        have hbml : b ∈ l1x ++ [p] := List.mem_of_mem_head? hb
        have hbn : b ≠ n := fun he => hnl1 (he ▸ hbml)
        have hba : b ≠ a := fun he => hal1 (he ▸ hbml)
        show updf (updf st.prev n (some p)) a (some n) b = none
        rw [updf_ne _ _ _ _ hba, updf_ne _ _ _ _ hbn]
        refine h.head_prev b ?_
        rw [List.head?_append_of_ne_nil _ (by simp : l1x ++ [p] ≠ [])]
        exact hb

theorem capacity_applyOp (st : DLL) (op : Op) : (applyOp st op).capacity = st.capacity := by
  cases op <;>
    simp only [applyOp, push, push_front, pop, pop_front, removeNode, add_after, add_before] <;>
    (repeat' split) <;> rfl

theorem rep_step (st : DLL) (l : List Nat) (op : Op) (h : Rep st l) (hok : opOk l op) :
    Rep (applyOp st op) (absOp st.capacity l op) := by
  cases op with
  | push n => exact rep_push st l n h hok
  | pushFront n => exact rep_push_front st l n h hok
  | pop => exact rep_pop st l h
  | popFront => exact rep_pop_front st l h
  | remove n => exact rep_remove st l n h hok
  | insertAfter a n => exact rep_add_after st l a n h hok.1 hok.2
  | insertBefore a n => exact rep_add_before st l a n h hok.1 hok.2

theorem rep_run (ops : List Op) : ∀ (st : DLL) (l : List Nat), Rep st l →
    SeqOk st.capacity l ops → Rep (runOps st ops) (absRun st.capacity l ops) := by
  induction ops with
  | nil =>
    intro st l h _
    exact h
  | cons op ops ih =>
    intro st l h hseq
    obtain ⟨hok, hrest⟩ := hseq
    have hstep := rep_step st l op h hok
    have hcap := capacity_applyOp st op
    show Rep (runOps (applyOp st op) ops) (absRun st.capacity (absOp st.capacity l op) ops)
    have hx := ih (applyOp st op) (absOp st.capacity l op) hstep (by rw [hcap]; exact hrest)
    rwa [hcap] at hx

/-- C5 counterexample: the claim constrains only `remove` and the insert
anchors, so pushing a node that is already in the list is one of the
quantified sequences; doing so corrupts the links, and the walked count no
longer matches `size` (here `size = 3` but the forward walk finds one
node). -/
theorem C5_cex_duplicate_push :
    (runOps (initDLL none) [.push 0, .push 1, .push 0]).size ≠
      (walkFwd (runOps (initDLL none) [.push 0, .push 1, .push 0])
        (runOps (initDLL none) [.push 0, .push 1, .push 0]).size
        (runOps (initDLL none) [.push 0, .push 1, .push 0]).head).length := by
  decide

/-- C5 (amended): for every sequence of push/pop/remove/insert operations in
which `remove` and the insert anchors name nodes currently in the list AND
every pushed or inserted node is not currently in the list, the resulting
heap satisfies list integrity: the forward walk from `head` is the reverse of
the backward walk from `tail`, its length equals `size`, `head.prev` is null
and `tail.next` is null. -/
theorem C5_amended_list_integrity (c : Option Nat) (ops : List Op)
    (hseq : SeqOk c [] ops) :
    let st := runOps (initDLL c) ops
    walkFwd st st.size st.head = (walkBwd st st.size st.tail).reverse ∧
    (walkFwd st st.size st.head).length = st.size ∧
    st.head.bind st.prev = none ∧
    st.tail.bind st.next = none := by
  intro st
  have hrep0 : Rep (initDLL c) [] :=
    ⟨rfl, rfl, rfl, List.nodup_nil, List.chain'_nil,
     (fun a ha => nomatch ha), (fun a ha => nomatch ha)⟩
  have hrep : Rep st (absRun c [] ops) := rep_run ops (initDLL c) [] hrep0 hseq
  have hf := rep_walkFwd st _ hrep
  have hb := rep_walkBwd st _ hrep
  refine ⟨?_, ?_, ?_, ?_⟩
  · rw [hf, hb, List.reverse_reverse]
  · rw [hf, hrep.size_eq]
  · cases hh : st.head with
    | none => rfl
    | some a =>
      show st.prev a = none
      exact hrep.head_prev a (by rw [← hrep.head_eq]; exact hh)
  · cases ht : st.tail with
    | none => rfl
    | some a =>
      show st.next a = none
      exact hrep.last_next a (by rw [← hrep.tail_eq]; exact ht)

/-- C5 (amended) witness: the integrity theorem applied to a concrete valid
sequence that exercises push, push_front, insert_after, insert_before,
remove, pop and pop_front on a capacity-5 list. -/
theorem C5_amended_list_integrity_witness :
    SeqOk (some 5) []
      [.push 0, .push 1, .insertAfter 0 2, .insertBefore 1 3, .remove 0,
       .pushFront 4, .pop, .popFront] ∧
    (let st := runOps (initDLL (some 5))
      [.push 0, .push 1, .insertAfter 0 2, .insertBefore 1 3, .remove 0,
       .pushFront 4, .pop, .popFront]
     walkFwd st st.size st.head = (walkBwd st st.size st.tail).reverse ∧
     (walkFwd st st.size st.head).length = st.size ∧
     st.head.bind st.prev = none ∧
     st.tail.bind st.next = none) :=
  ⟨by decide,
   C5_amended_list_integrity (some 5)
     [.push 0, .push 1, .insertAfter 0 2, .insertBefore 1 3, .remove 0,
      .pushFront 4, .pop, .popFront] (by decide)⟩

/-- C6: a list whose `size` has reached its `capacity` rejects `push` and
`push_front` as no-ops reporting `False` ("capacity reached"): the whole heap
(hence the node sequence and `size`) is unchanged and nothing is truncated. -/
theorem C6_capacity_rejects (st : DLL) (k n m : Nat)
    (h1 : st.capacity = some k) (h2 : st.size = k) :
    push st n = (st, false) ∧ push_front st m = (st, false) := by
  have hc : capAtMax st := by rw [capAtMax, h1, h2]
  constructor
  · unfold push
    rw [if_pos hc]
  · unfold push_front
    rw [if_pos hc]

/-- C6 witness: the capacity theorem applied to the concrete one-slot list
`[5]` with capacity 1. -/
theorem C6_capacity_rejects_witness :
    ((runOps (initDLL (some 1)) [.push 5]).capacity = some 1 ∧
      (runOps (initDLL (some 1)) [.push 5]).size = 1) ∧
    (push (runOps (initDLL (some 1)) [.push 5]) 7 =
        (runOps (initDLL (some 1)) [.push 5], false) ∧
      push_front (runOps (initDLL (some 1)) [.push 5]) 8 =
        (runOps (initDLL (some 1)) [.push 5], false)) :=
  ⟨⟨rfl, rfl⟩, C6_capacity_rejects (runOps (initDLL (some 1)) [.push 5]) 1 7 8 rfl rfl⟩

end IosHome
